import Mathlib

/-!
Shallow embedding of `paasta_tools/firewall.py` (todokku/paasta): chain-name
derivation, policy compilation, service-chain reconciliation, dispatch-chain
construction and garbage collection, together with a semantic model of the
table-control collaborator (`paasta_tools.iptables`, which is not among the
sources; it is modelled from the spec, section 6).
-/

namespace Firewall

/-- Python string slicing `s[:n]`: the first `n` characters of `s`. -/
def pySlice (s : String) (n : Nat) : String := ⟨s.data.take n⟩

/-- Python `s.startswith(p)`. -/
def pyStartswith (s p : String) : Bool := p.data.isPrefixOf s.data

/-- Python `s.upper()` for the ASCII strings used here (MAC addresses). -/
def pyUpper (s : String) : String := ⟨s.data.map Char.toUpper⟩

/-- Lower-case hexadecimal digit. -/
def hexDigit (n : Nat) : Char :=
  if n < 10 then Char.ofNat (48 + n) else Char.ofNat (87 + n)

/-- Four lower-case hex digits, as produced by the `\uXXXX` escapes of
`json.dumps`. -/
def hex4 (n : Nat) : List Char :=
  [hexDigit (n / 4096 % 16), hexDigit (n / 256 % 16), hexDigit (n / 16 % 16), hexDigit (n % 16)]

/-- Escape of one character under Python `json.dumps` with its default
`ensure_ascii=True`: quote and backslash are escaped, control characters use
the short escapes or `\uXXXX`, and every code point above `0x7e` is written
as `\uXXXX` (surrogate pairs beyond the basic plane). -/
def jsonEscapeChar (c : Char) : List Char :=
  if c = '"' then ['\\', '"']
  else if c = '\\' then ['\\', '\\']
  else if c = '\n' then ['\\', 'n']
  else if c = '\r' then ['\\', 'r']
  else if c = '\t' then ['\\', 't']
  else if c = Char.ofNat 8 then ['\\', 'b']
  else if c = Char.ofNat 12 then ['\\', 'f']
  else if c.toNat < 32 then '\\' :: 'u' :: hex4 c.toNat
  else if c.toNat < 127 then [c]
  else if c.toNat < 65536 then '\\' :: 'u' :: hex4 c.toNat
  else
    '\\' :: 'u' :: hex4 (55296 + (c.toNat - 65536) / 1024) ++
      ('\\' :: 'u' :: hex4 (56320 + (c.toNat - 65536) % 1024))

/-- Python `json.dumps` of a single string. -/
def jsonString (s : String) : String :=
  ⟨'"' :: s.data.foldr (fun c acc => jsonEscapeChar c ++ acc) ['"']⟩

/-- The `ServiceGroup` namedtuple of firewall.py: (service, instance,
framework, soa_dir). The Python field `instance` is a Lean keyword, hence
the trailing underscore. -/
structure ServiceGroup where
  service : String
  instance_ : String
  framework : String
  soa_dir : String
deriving DecidableEq

/-- Python `json.dumps(self)` of the namedtuple: a JSON array of its four
fields joined by the default ", " separator. This canonical serialization
feeds the chain-name hash. -/
def jsonDumps (g : ServiceGroup) : String :=
  "[" ++ String.intercalate ", "
    [jsonString g.service, jsonString g.instance_, jsonString g.framework,
     jsonString g.soa_dir] ++ "]"

/-- The `ServiceGroup.chain_name` property. The call into the Python
standard library (`hashlib.sha256(...).hexdigest()`) is modelled as an
explicit parameter `hash` mapping the serialized key to its hex digest;
the theorems below hold for an arbitrary digest function. -/
def ServiceGroup.chain_name (hash : String → String) (g : ServiceGroup) : String :=
  "PAASTA." ++ pySlice g.service 10 ++ "." ++ pySlice (hash (jsonDumps g)) 10

/-- Modelled from the spec: the immutable `Rule` value of the table-control
collaborator `paasta_tools.iptables` (a module of this repository that is
not among the sources): protocol, source CIDR, destination CIDR, target, and
an ordered sequence of match extensions, each a (name, ordered key-value
parameter list) pair (spec, section 3). The Python field `matches` is a Lean
keyword, hence the trailing underscore. -/
structure Rule where
  protocol : String
  src : String
  dst : String
  target : String
  matches_ : List (String × List (String × String))
deriving DecidableEq

/-- `PRIVATE_IP_RANGES` of firewall.py, in source order. -/
def PRIVATE_IP_RANGES : List String :=
  ["127.0.0.0/255.0.0.0", "10.0.0.0/255.0.0.0", "172.16.0.0/255.240.0.0",
   "192.168.0.0/255.255.0.0", "169.254.0.0/255.255.0.0"]

/-- Modelled from the spec: the slice of the per-service configuration that
the compiler reads from the configuration collaborator (spec, section 6):
the outbound firewall posture (possibly absent) and the two dependency
lists, in declaration order. -/
structure ServiceConfig where
  outbound_firewall : Option String
  well_known : List String
  smartstack : List String
deriving DecidableEq

/-- The exceptions a compile can raise in firewall.py: AssertionError for an
unrecognized posture, KeyError for an unknown well-known resource or a
failed dictionary lookup, ValueError for a namespace without a dot (the
failed unpacking of `split`). -/
inductive CompileError where
  | assertion_error (policy : Option String)
  | key_error (key : String)
  | value_error (ns : String)
deriving DecidableEq

/-- The function `_default_rule` of firewall.py: an if/elif/else on the
declared posture. -/
def _default_rule (conf : ServiceConfig) : Except CompileError Rule :=
  if conf.outbound_firewall = some "block" then
    .ok ⟨"ip", "0.0.0.0/0.0.0.0", "0.0.0.0/0.0.0.0", "REJECT", []⟩
  else if conf.outbound_firewall = some "monitor" then
    .ok ⟨"ip", "0.0.0.0/0.0.0.0", "0.0.0.0/0.0.0.0", "LOG", []⟩
  else .error (.assertion_error conf.outbound_firewall)

/-- Sequence a fallible per-element compiler over a list, stopping at the
first raised exception, the way the Python `for` loops of firewall.py
consume their generators. -/
def exceptList (f : α → Except CompileError Rule) :
    List α → Except CompileError (List Rule)
  | [] => .ok []
  | a :: as =>
    match f a with
    | .error e => .error e
    | .ok b =>
      match exceptList f as with
      | .error e => .error e
      | .ok bs => .ok (b :: bs)

/-- The body of the `_well_known_rules` generator for one declared
resource: only "internet" is recognized. -/
def _well_known_rule (resource : String) : Except CompileError Rule :=
  if resource = "internet" then
    .ok ⟨"ip", "0.0.0.0/0.0.0.0", "0.0.0.0/0.0.0.0", "PAASTA-INTERNET", []⟩
  else .error (.key_error resource)

/-- The generator `_well_known_rules` of firewall.py, fully consumed. -/
def _well_known_rules (conf : ServiceConfig) : Except CompileError (List Rule) :=
  exceptList _well_known_rule conf.well_known

/-- Python `s.split(".", 1)` followed by unpacking into two names: some
(before, after) when the string contains a dot, none (a ValueError) when it
does not. -/
def pySplitOnce (s : String) : Option (String × String) :=
  if (s.data.takeWhile (fun c => c ≠ '.')).length = s.data.length then none
  else some (⟨s.data.takeWhile (fun c => c ≠ '.')⟩,
             ⟨(s.data.dropWhile (fun c => c ≠ '.')).drop 1⟩)

/-- A Python dict built from a list of pairs and then indexed: the last
binding of a key wins; none models the KeyError. -/
def dictGet (pairs : List (String × α)) (k : String) : Option α :=
  ((pairs.filter (fun e => e.1 = k)).getLast?).map (fun e => e.2)

/-- Modelled from the spec: `get_all_namespaces_for_service` of the
configuration collaborator (spec, section 6) returns, for a service name,
its (namespace, info) pairs; only the optional proxy_port field of the info
dictionary is ever read here. -/
abbrev NsLookup := String → List (String × Option Nat)

/-- The body of the `_smartstack_rules` generator for one declared
namespace: split the namespace at the first dot, look the namespace up among
the namespaces of that service, read its proxy_port, and emit the accept
rule for the service-discovery proxy address scoped to that TCP port. -/
def _smartstack_rule (nsLookup : NsLookup) (ns : String) : Except CompileError Rule :=
  match pySplitOnce ns with
  | none => .error (.value_error ns)
  | some (service, _) =>
    match dictGet (nsLookup service) ns with
    | none => .error (.key_error ns)
    | some none => .error (.key_error "proxy_port")
    | some (some port) =>
      .ok ⟨"tcp", "0.0.0.0/0.0.0.0", "169.254.255.254/255.255.255.255", "ACCEPT",
        [("tcp", [("dport", toString port)])]⟩

/-- The generator `_smartstack_rules` of firewall.py, fully consumed. -/
def _smartstack_rules (nsLookup : NsLookup) (conf : ServiceConfig) :
    Except CompileError (List Rule) :=
  exceptList (_smartstack_rule nsLookup) conf.smartstack

/-- The namespace resolution performed inside `_smartstack_rules`, in
isolation: the proxy port a declared namespace resolves to, if any. -/
def resolve_proxy_port (nsLookup : NsLookup) (ns : String) : Option Nat :=
  match pySplitOnce ns with
  | none => none
  | some (service, _) =>
    match dictGet (nsLookup service) ns with
    | some (some port) => some port
    | _ => none

/-- The body of the `ServiceGroup.rules` property (the policy compiler of
the spec, section 4.2): the default-posture rule, then the well-known rules,
then the smartstack rules, concatenated in that order. -/
def compile (nsLookup : NsLookup) (conf : ServiceConfig) : Except CompileError (List Rule) :=
  match _default_rule conf with
  | .error e => .error e
  | .ok d =>
    match _well_known_rules conf with
    | .error e => .error e
    | .ok wks =>
      match _smartstack_rules nsLookup conf with
      | .error e => .error e
      | .ok sss => .ok (d :: (wks ++ sss))

/-- Modelled from the spec: the configuration collaborator (spec, section 6)
from which `ServiceGroup.config` reads the policy document; it is a
parameter of everything built on `ServiceGroup.rules`. -/
abbrev LoadConfig := ServiceGroup → ServiceConfig

/-- The `ServiceGroup.rules` property of firewall.py. -/
def ServiceGroup.rules (loadConfig : LoadConfig) (nsLookup : NsLookup) (g : ServiceGroup) :
    Except CompileError (List Rule) :=
  compile nsLookup (loadConfig g)

/-- Modelled from the spec: one invocation of the table-control collaborator
(spec, section 6). -/
inductive TableCall where
  | ensure_chain (chain : String) (rules : List Rule)
  | ensure_rule (chain : String) (rule : Rule)
  | delete_chain (chain : String)
deriving DecidableEq

/-- The rule list installed by `ensure_internet_chain`: accept everything,
then one RETURN per private range, in the PRIVATE_IP_RANGES order. -/
def internet_rules : List Rule :=
  ⟨"ip", "0.0.0.0/0.0.0.0", "0.0.0.0/0.0.0.0", "ACCEPT", []⟩ ::
    PRIVATE_IP_RANGES.map (fun r => ⟨"ip", "0.0.0.0/0.0.0.0", r, "RETURN", []⟩)

/-- The single table-control call issued by `ensure_internet_chain`. -/
def ensure_internet_chain : TableCall :=
  .ensure_chain "PAASTA-INTERNET" internet_rules

/-- `ensure_service_chains` of firewall.py: walk the active service groups
in order, compile each, and issue one ensure_chain call per group; a raised
compile exception propagates, so the walk stops there. Returns the calls
actually issued and either the chain-to-MAC-set mapping or the exception. -/
def ensure_service_chains (loadConfig : LoadConfig) (nsLookup : NsLookup)
    (hash : String → String) :
    List (ServiceGroup × List String) →
      List TableCall × Except CompileError (List (String × List String))
  | [] => ([], .ok [])
  | (g, macs) :: rest =>
    match g.rules loadConfig nsLookup with
    | .error e => ([], .error e)
    | .ok rs =>
      (.ensure_chain (g.chain_name hash) rs ::
         (ensure_service_chains loadConfig nsLookup hash rest).1,
       (ensure_service_chains loadConfig nsLookup hash rest).2.map
         (fun m => (g.chain_name hash, macs) :: m))

/-- One dispatch rule of `ensure_dispatch_chains`: match every address, with
a source MAC match whose value is upper-cased, jumping to the per-service
chain. -/
def dispatch_rule (chain : String) (mac : String) : Rule :=
  ⟨"ip", "0.0.0.0/0.0.0.0", "0.0.0.0/0.0.0.0", chain,
   [("mac", [("mac_source", pyUpper mac)])]⟩

/-- The `paasta_rules` set built in `ensure_dispatch_chains`: one dispatch
rule per (chain, mac) pair. The Python code collects them into a set, which
is modelled as a duplicate-free list. -/
def paasta_rules (service_chains : List (String × List String)) : List Rule :=
  ((service_chains.map (fun e => e.2.map (dispatch_rule e.1))).flatten).dedup

/-- The `jump_to_paasta` rule of `ensure_dispatch_chains`. -/
def jump_to_paasta : Rule :=
  ⟨"ip", "0.0.0.0/0.0.0.0", "0.0.0.0/0.0.0.0", "PAASTA", []⟩

/-- The three table-control calls issued by `ensure_dispatch_chains`. -/
def ensure_dispatch_chains (service_chains : List (String × List String)) : List TableCall :=
  [.ensure_chain "PAASTA" (paasta_rules service_chains),
   .ensure_rule "INPUT" jump_to_paasta,
   .ensure_rule "FORWARD" jump_to_paasta]

/-- The `current_paasta_chains` set comprehension of the garbage collector:
present chains whose name matches the naming convention. -/
def current_paasta_chains (present : List String) : List String :=
  present.filter (fun c => pyStartswith c "PAASTA.")

/-- The set difference `current_paasta_chains - set(desired_chains)` the
garbage collector iterates, kept in the order of the present list (the
Python set iteration order is unspecified). -/
def stale_chains (present desired : List String) : List String :=
  (current_paasta_chains present).filter (fun c => !(desired.contains c))

/-- The deletion loop of the garbage collector. The collaborator may refuse
a deletion (modelled from the spec, section 6: delete_chain fails when the
chain is still referenced), modelled by the deleteOk parameter; the source
has no handler, so the first refusal raises out of the loop. Returns the
delete_chain calls attempted, in order, and the chain whose deletion
failed, if any. -/
def gcRun (deleteOk : String → Bool) : List String → List String × Option String
  | [] => ([], none)
  | c :: rest =>
    if deleteOk c then
      ((gcRun deleteOk rest).1.cons c, (gcRun deleteOk rest).2)
    else ([c], some c)

/-- `garbage_collect_old_service_chains` of firewall.py over a given present
chain set. -/
def garbage_collect_old_service_chains (deleteOk : String → Bool)
    (present desired : List String) : List String × Option String :=
  gcRun deleteOk (stale_chains present desired)

/-- Modelled from the spec: the state of the external table, one ordered
rule list per chain name (spec, section 6). The embedding keeps chains in a
list; well-formed tables bind each name once. -/
abbrev Table := List (String × List Rule)

/-- Chain lookup in the table. -/
def getChain (t : Table) (name : String) : Option (List Rule) :=
  (t.find? (fun e => e.1 = name)).map (fun e => e.2)

/-- Modelled from the spec: ensure_chain replaces the contents of the named
chain with exactly the given rules, creating the chain if absent. -/
def setChain (t : Table) (name : String) (rs : List Rule) : Table :=
  if t.any (fun e => e.1 = name) then
    t.map (fun e => if e.1 = name then (name, rs) else e)
  else t ++ [(name, rs)]

/-- Modelled from the spec: delete_chain removes the named chain. -/
def delChain (t : Table) (name : String) : Table :=
  t.filter (fun e => e.1 ≠ name)

/-- Modelled from the spec: ensure_rule guarantees one occurrence of the
rule in a pre-existing chain and touches nothing else; on an absent chain
the model makes it a no-op. -/
def ensureRuleInChain (t : Table) (name : String) (r : Rule) : Table :=
  match getChain t name with
  | none => t
  | some rs => if r ∈ rs then t else setChain t name (rs ++ [r])

/-- Interpretation of one table-control call on the table; deletions are
taken to succeed here (the failing case is modelled by gcRun). -/
def applyCall (t : Table) : TableCall → Table
  | .ensure_chain n rs => setChain t n rs
  | .ensure_rule n r => ensureRuleInChain t n r
  | .delete_chain n => delChain t n

/-- Interpretation of a call sequence, first call first. -/
def applyCalls (t : Table) (calls : List TableCall) : Table :=
  calls.foldl applyCall t

/-- Modelled from the spec: all_chains enumerates the chain names present. -/
def chainNames (t : Table) : List String := t.map (fun e => e.1)

/-- Insert one discovered (group, mac) observation into the accumulated
mapping: the defaultdict(set) of `active_service_groups` keyed by the
ServiceGroup, modelled as an insertion-ordered list of (group, macs) whose
mac lists are duplicate-free. -/
def addObservation (acc : List (ServiceGroup × List String)) (g : ServiceGroup)
    (mac : String) : List (ServiceGroup × List String) :=
  if acc.any (fun e => e.1 = g) then
    acc.map (fun e => if e.1 = g then (e.1, if mac ∈ e.2 then e.2 else e.2 ++ [mac]) else e)
  else acc ++ [(g, [mac])]

/-- `active_service_groups` of firewall.py: group the discovery stream
(modelled from the spec: the discovery collaborator yields (service,
instance, framework, mac) tuples) by ServiceGroup, accumulating MAC sets. -/
def active_service_groups (soa_dir : String)
    (running : List (String × String × String × String)) :
    List (ServiceGroup × List String) :=
  running.foldl
    (fun acc tup => addObservation acc ⟨tup.1, tup.2.1, tup.2.2.1, soa_dir⟩ tup.2.2.2) []

/-- `general_update` of firewall.py as a transformer of the modelled table:
first the baseline chain, then the per-service chains; a compile exception
aborts the pass there (the source has no handler); otherwise the dispatch
chain is rebuilt and the stale chains are deleted, every deletion taken to
succeed. -/
def general_update (loadConfig : LoadConfig) (nsLookup : NsLookup) (hash : String → String)
    (soa_dir : String) (running : List (String × String × String × String))
    (t : Table) : Table :=
  let t1 := applyCall t ensure_internet_chain
  let sc := ensure_service_chains loadConfig nsLookup hash (active_service_groups soa_dir running)
  let t2 := applyCalls t1 sc.1
  match sc.2 with
  | .error _ => t2
  | .ok service_chains =>
    let t3 := applyCalls t2 (ensure_dispatch_chains service_chains)
    let stale := stale_chains (chainNames t3) (service_chains.map (fun e => e.1))
    (stale.map TableCall.delete_chain).foldl applyCall t3

/-- The rule list of a group whose compile succeeded (used to state the
reconciliation theorems). -/
def compiledRules (loadConfig : LoadConfig) (nsLookup : NsLookup) (g : ServiceGroup) :
    List Rule :=
  match compile nsLookup (loadConfig g) with
  | .ok rs => rs
  | .error _ => []

/-- Whether a compile succeeded: a decidable success test used in witness
statements. -/
def compileOk (nsLookup : NsLookup) (conf : ServiceConfig) : Bool :=
  match compile nsLookup conf with
  | .ok _ => true
  | .error _ => false

/-- The example policy of the spec, section 8: posture block, one well-known
dependency internet, one namespace dependency resolving to port 8888. -/
def example_conf : ServiceConfig := ⟨some "block", ["internet"], ["foo.main"]⟩

/-- The example namespace lookup: foo.main resolves to proxy port 8888. -/
def example_nsLookup : NsLookup :=
  fun s => if s = "foo" then [("foo.main", some 8888)] else []

/-- A concrete configuration collaborator whose policy document is invalid
for the service named bad and valid (posture block, no dependencies) for
every other service. -/
def cex_loadConfig : LoadConfig :=
  fun g => if g.service = "bad" then ⟨some "nonsense", [], []⟩ else ⟨some "block", [], []⟩

/-- A concrete service group with the invalid policy. -/
def cex_bad : ServiceGroup := ⟨"bad", "main", "marathon", "/soa"⟩

/-- A concrete service group with a valid policy. -/
def cex_good : ServiceGroup := ⟨"good", "main", "marathon", "/soa"⟩

/-- A concrete digest function for the counterexamples and witnesses. -/
def cex_hash : String → String := fun _ => "0123456789abcdef"

/-- The table after the reconciliation loop: one setChain per group, in
group order (the success path of ensure_service_chains as applied to the
table). -/
def reconciled_table (loadConfig : LoadConfig) (nsLookup : NsLookup) (hash : String → String)
    (groups : List (ServiceGroup × List String)) (t : Table) : Table :=
  groups.foldl
    (fun tt gm => setChain tt (gm.1.chain_name hash) (compiledRules loadConfig nsLookup gm.1)) t

/-- The table a successful pass has built just before garbage collection:
baseline chain, service chains, dispatch chain, and the two jump rules. -/
def pass_pre_gc (loadConfig : LoadConfig) (nsLookup : NsLookup) (hash : String → String)
    (groups : List (ServiceGroup × List String)) (t : Table) : Table :=
  ensureRuleInChain
    (ensureRuleInChain
      (setChain
        (reconciled_table loadConfig nsLookup hash groups
          (setChain t "PAASTA-INTERNET" internet_rules))
        "PAASTA" (paasta_rules (groups.map (fun gm => (gm.1.chain_name hash, gm.2)))))
      "INPUT" jump_to_paasta)
    "FORWARD" jump_to_paasta

/-- The table a successful pass leaves behind: the pre-GC table with its
stale chains deleted. -/
def pass_table (loadConfig : LoadConfig) (nsLookup : NsLookup) (hash : String → String)
    (groups : List (ServiceGroup × List String)) (t : Table) : Table :=
  (stale_chains (chainNames (pass_pre_gc loadConfig nsLookup hash groups t))
      (groups.map (fun gm => gm.1.chain_name hash))).foldl delChain
    (pass_pre_gc loadConfig nsLookup hash groups t)

/-- The state in which a completed pass leaves the table: the baseline chain
holds its six rules, every service chain holds its compiled rules, the
dispatch chain holds the dispatch rules, the traffic-entry chains (when
present) contain the jump rule, and every present chain matching the naming
convention is a desired one. -/
def GroupsUpdated (loadConfig : LoadConfig) (nsLookup : NsLookup) (hash : String → String)
    (groups : List (ServiceGroup × List String)) (t : Table) : Prop :=
  getChain t "PAASTA-INTERNET" = some internet_rules ∧
  (∀ gm ∈ groups,
      getChain t (gm.1.chain_name hash) = some (compiledRules loadConfig nsLookup gm.1)) ∧
  getChain t "PAASTA" =
    some (paasta_rules (groups.map (fun gm => (gm.1.chain_name hash, gm.2)))) ∧
  (∀ c ∈ (["INPUT", "FORWARD"] : List String), ∀ rs, getChain t c = some rs →
      jump_to_paasta ∈ rs) ∧
  (∀ n ∈ chainNames t, pyStartswith n "PAASTA." = true →
      n ∈ groups.map (fun gm => gm.1.chain_name hash))

/-- A slice takes at most the requested number of characters. -/
theorem pySlice_length_le (s : String) (n : Nat) : (pySlice s n).length ≤ n := by
  show (s.data.take n).length ≤ n
  simp [List.length_take]

/-- C5: for every ServiceGroupKey and every digest function, chain_name is a
pure deterministic function (two evaluations yield the identical string) and
its length is at most 28 characters, so the in-function length assertion
never fires. -/
theorem chain_name_deterministic_and_bounded (hash : String → String) (g : ServiceGroup) :
    g.chain_name hash = g.chain_name hash ∧ (g.chain_name hash).length ≤ 28 := by
  refine ⟨rfl, ?_⟩
  have h1 : (pySlice g.service 10).length ≤ 10 := pySlice_length_le _ _
  have h2 : (pySlice (hash (jsonDumps g)) 10).length ≤ 10 := pySlice_length_le _ _
  have h3 : ("PAASTA." : String).length = 7 := rfl
  have h4 : ("." : String).length = 1 := rfl
  show ("PAASTA." ++ pySlice g.service 10 ++ "." ++ pySlice (hash (jsonDumps g)) 10).length ≤ 28
  simp only [String.length_append, h3, h4]
  omega

/-- C6: two distinct keys whose service names agree on their first 10
characters still get distinct chain names whenever the first 10 hex
characters of the digests of their canonical serializations differ. -/
theorem chain_name_collision_resistant (hash : String → String) (g₁ g₂ : ServiceGroup)
    (hsvc : pySlice g₁.service 10 = pySlice g₂.service 10)
    (hhash : pySlice (hash (jsonDumps g₁)) 10 ≠ pySlice (hash (jsonDumps g₂)) 10) :
    g₁.chain_name hash ≠ g₂.chain_name hash := by
  intro h
  apply hhash
  have hd := congrArg String.data h
  simp only [ServiceGroup.chain_name, String.data_append, hsvc, List.append_assoc] at hd
  have htail := List.append_cancel_left (List.append_cancel_left (List.append_cancel_left hd))
  exact congrArg String.mk htail

/-- C6 witness: a concrete pair of keys differing only in the instance
field, with the identity as digest function, gets distinct chain names. -/
theorem chain_name_collision_resistant_witness :
    (⟨"svc", "a", "marathon", "/soa"⟩ : ServiceGroup).chain_name (fun s => s) ≠
      (⟨"svc", "b", "marathon", "/soa"⟩ : ServiceGroup).chain_name (fun s => s) :=
  chain_name_collision_resistant (fun s => s) _ _ (by decide) (by decide)

/-- C10: ensure_internet_chain installs into PAASTA-INTERNET exactly six
rules in a fixed order: the accept-all rule first, then one RETURN rule per
private range in the PRIVATE_IP_RANGES order, so in the installed sequence
the accept-all rule precedes every private-range RETURN rule. -/
theorem internet_chain_contents :
    ensure_internet_chain = .ensure_chain "PAASTA-INTERNET"
      [⟨"ip", "0.0.0.0/0.0.0.0", "0.0.0.0/0.0.0.0", "ACCEPT", []⟩,
       ⟨"ip", "0.0.0.0/0.0.0.0", "127.0.0.0/255.0.0.0", "RETURN", []⟩,
       ⟨"ip", "0.0.0.0/0.0.0.0", "10.0.0.0/255.0.0.0", "RETURN", []⟩,
       ⟨"ip", "0.0.0.0/0.0.0.0", "172.16.0.0/255.240.0.0", "RETURN", []⟩,
       ⟨"ip", "0.0.0.0/0.0.0.0", "192.168.0.0/255.255.0.0", "RETURN", []⟩,
       ⟨"ip", "0.0.0.0/0.0.0.0", "169.254.0.0/255.255.0.0", "RETURN", []⟩] ∧
    internet_rules.length = 6 ∧
    internet_rules.head? = some ⟨"ip", "0.0.0.0/0.0.0.0", "0.0.0.0/0.0.0.0", "ACCEPT", []⟩ ∧
    internet_rules.tail =
      PRIVATE_IP_RANGES.map (fun r => ⟨"ip", "0.0.0.0/0.0.0.0", r, "RETURN", []⟩) :=
  ⟨rfl, rfl, rfl, rfl⟩

/-- A consumed generator yields exactly one compiled rule per declared
element, in declaration order. -/
theorem exceptList_ok_iff (f : α → Except CompileError Rule) (l : List α) (out : List Rule) :
    exceptList f l = .ok out ↔ List.Forall₂ (fun a b => f a = .ok b) l out := by
  induction l generalizing out with
  | nil =>
    constructor
    · intro h
      cases out with
      | nil => exact List.Forall₂.nil
      | cons b bs => simp [exceptList] at h
    · intro h
      cases h
      rfl
  | cons a as ih =>
    constructor
    · intro h
      cases hfa : f a with
      | error e => simp [exceptList, hfa] at h
      | ok b =>
        cases hrest : exceptList f as with
        | error e => simp [exceptList, hfa, hrest] at h
        | ok bs =>
          simp only [exceptList, hfa, hrest, Except.ok.injEq] at h
          subst h
          exact List.Forall₂.cons hfa ((ih bs).1 hrest)
    · intro h
      cases h with
      | cons hab htl =>
        simp only [exceptList, hab, (ih _).2 htl]

/-- A consumed generator raises exactly when some declared element makes its
body raise. -/
theorem exceptList_error_iff (f : α → Except CompileError Rule) (l : List α) :
    (∃ e, exceptList f l = .error e) ↔ ∃ a ∈ l, ∃ e, f a = .error e := by
  induction l with
  | nil => simp [exceptList]
  | cons a as ih =>
    constructor
    · rintro ⟨e, he⟩
      cases hfa : f a with
      | error e2 => exact ⟨a, by simp, e2, hfa⟩
      | ok b =>
        cases hrest : exceptList f as with
        | error e2 =>
          obtain ⟨x, hx, hex⟩ := ih.1 ⟨e2, hrest⟩
          exact ⟨x, by simp [hx], hex⟩
        | ok bs => simp [exceptList, hfa, hrest] at he
    · rintro ⟨x, hx, e, he⟩
      rcases List.mem_cons.1 hx with rfl | hx2
      · exact ⟨e, by simp only [exceptList, he]⟩
      · cases hfa : f a with
        | error e3 => exact ⟨e3, by simp only [exceptList, hfa]⟩
        | ok b =>
          obtain ⟨e2, he2⟩ := ih.2 ⟨x, hx2, e, he⟩
          exact ⟨e2, by simp only [exceptList, hfa, he2]⟩

/-- The default rule raises exactly on a posture that is neither block nor
monitor. -/
theorem _default_rule_error_iff (conf : ServiceConfig) :
    (∃ e, _default_rule conf = .error e) ↔
      (conf.outbound_firewall ≠ some "block" ∧ conf.outbound_firewall ≠ some "monitor") := by
  unfold _default_rule
  split_ifs with h1 h2 <;> simp_all

/-- A well-known resource rule raises exactly on a resource other than
internet. -/
theorem _well_known_rule_error_iff (r : String) :
    (∃ e, _well_known_rule r = .error e) ↔ r ≠ "internet" := by
  unfold _well_known_rule
  split_ifs with h <;> simp_all

/-- A smartstack rule raises exactly when the namespace does not resolve to
a proxy port. -/
theorem _smartstack_rule_error_iff (nsLookup : NsLookup) (ns : String) :
    (∃ e, _smartstack_rule nsLookup ns = .error e) ↔
      resolve_proxy_port nsLookup ns = none := by
  unfold _smartstack_rule resolve_proxy_port
  cases hsp : pySplitOnce ns with
  | none => simp
  | some pr =>
    obtain ⟨sv, rest⟩ := pr
    cases hd : dictGet (nsLookup sv) ns with
    | none => simp [hd]
    | some po =>
      cases po with
      | none => simp [hd]
      | some port => simp [hd]

/-- C7: compiling raises exactly when the posture is invalid, or a declared
well-known resource is not the recognized one (internet), or a declared
namespace does not resolve to a proxy port; with a valid posture, only
recognized resources and all namespaces resolvable, it returns a rule list. -/
theorem compile_error_conditions (nsLookup : NsLookup) (conf : ServiceConfig) :
    ((∃ e, compile nsLookup conf = .error e) ↔
      ((conf.outbound_firewall ≠ some "block" ∧ conf.outbound_firewall ≠ some "monitor") ∨
       (∃ r ∈ conf.well_known, r ≠ "internet") ∨
       (∃ ns ∈ conf.smartstack, resolve_proxy_port nsLookup ns = none))) ∧
    ((∃ rs, compile nsLookup conf = .ok rs) ↔
      ¬ ((conf.outbound_firewall ≠ some "block" ∧ conf.outbound_firewall ≠ some "monitor") ∨
         (∃ r ∈ conf.well_known, r ≠ "internet") ∨
         (∃ ns ∈ conf.smartstack, resolve_proxy_port nsLookup ns = none))) := by
  have key : (∃ e, compile nsLookup conf = .error e) ↔
      ((conf.outbound_firewall ≠ some "block" ∧ conf.outbound_firewall ≠ some "monitor") ∨
       (∃ r ∈ conf.well_known, r ≠ "internet") ∨
       (∃ ns ∈ conf.smartstack, resolve_proxy_port nsLookup ns = none)) := by
    cases hd : _default_rule conf with
    | error e =>
      constructor
      · intro _
        exact Or.inl ((_default_rule_error_iff conf).1 ⟨e, hd⟩)
      · intro _
        exact ⟨e, by simp only [compile, hd]⟩
    | ok d =>
      have hdef : ¬ (conf.outbound_firewall ≠ some "block" ∧
          conf.outbound_firewall ≠ some "monitor") := by
        rw [← _default_rule_error_iff conf, hd]
        simp
      cases hw : _well_known_rules conf with
      | error e =>
        constructor
        · intro _
          refine Or.inr (Or.inl ?_)
          obtain ⟨r, hr, e2, he2⟩ := (exceptList_error_iff _well_known_rule conf.well_known).1 ⟨e, hw⟩
          exact ⟨r, hr, (_well_known_rule_error_iff r).1 ⟨e2, he2⟩⟩
        · intro _
          exact ⟨e, by simp only [compile, hd, hw]⟩
      | ok wks =>
        have hwk : ¬ ∃ r ∈ conf.well_known, r ≠ "internet" := by
          intro ⟨r, hr, hne⟩
          obtain ⟨e2, he2⟩ := (_well_known_rule_error_iff r).2 hne
          obtain ⟨e3, he3⟩ :=
            (exceptList_error_iff _well_known_rule conf.well_known).2 ⟨r, hr, e2, he2⟩
          rw [show exceptList _well_known_rule conf.well_known = _well_known_rules conf from rfl,
            hw] at he3
          cases he3
        cases hs : _smartstack_rules nsLookup conf with
        | error e =>
          constructor
          · intro _
            refine Or.inr (Or.inr ?_)
            obtain ⟨n, hn, e2, he2⟩ :=
              (exceptList_error_iff (_smartstack_rule nsLookup) conf.smartstack).1 ⟨e, hs⟩
            exact ⟨n, hn, (_smartstack_rule_error_iff nsLookup n).1 ⟨e2, he2⟩⟩
          · intro _
            exact ⟨e, by simp only [compile, hd, hw, hs]⟩
        | ok sss =>
          have hss : ¬ ∃ n ∈ conf.smartstack, resolve_proxy_port nsLookup n = none := by
            intro ⟨n, hn, hnone⟩
            obtain ⟨e2, he2⟩ := (_smartstack_rule_error_iff nsLookup n).2 hnone
            obtain ⟨e3, he3⟩ :=
              (exceptList_error_iff (_smartstack_rule nsLookup) conf.smartstack).2 ⟨n, hn, e2, he2⟩
            rw [show exceptList (_smartstack_rule nsLookup) conf.smartstack =
              _smartstack_rules nsLookup conf from rfl, hs] at he3
            cases he3
          constructor
          · rintro ⟨e, he⟩
            simp [compile, hd, hw, hs] at he
          · rintro (h1 | h2 | h3)
            · exact absurd h1 hdef
            · exact absurd h2 hwk
            · exact absurd h3 hss
  refine ⟨key, ?_⟩
  rw [← key]
  cases hc : compile nsLookup conf with
  | error e => simp
  | ok rs => simp

/-- C3: a successful compile is exactly the default-posture rule, then one
rule per declared well-known resource, then one rule per declared
service-discovery namespace, each group in declaration order; in particular
the block/internet/port-8888 example compiles to exactly the three rules
[default-reject, well-known-jump, namespace-accept-8888] in this order. -/
theorem compile_order (conf : ServiceConfig) (nsLookup : NsLookup) (rs : List Rule)
    (h : compile nsLookup conf = .ok rs) :
    (∃ d wks sss,
      _default_rule conf = .ok d ∧
      List.Forall₂ (fun dep rule => _well_known_rule dep = .ok rule) conf.well_known wks ∧
      List.Forall₂ (fun ns rule => _smartstack_rule nsLookup ns = .ok rule) conf.smartstack sss ∧
      rs = d :: (wks ++ sss)) ∧
    compile example_nsLookup example_conf = .ok
      [⟨"ip", "0.0.0.0/0.0.0.0", "0.0.0.0/0.0.0.0", "REJECT", []⟩,
       ⟨"ip", "0.0.0.0/0.0.0.0", "0.0.0.0/0.0.0.0", "PAASTA-INTERNET", []⟩,
       ⟨"tcp", "0.0.0.0/0.0.0.0", "169.254.255.254/255.255.255.255", "ACCEPT",
        [("tcp", [("dport", "8888")])]⟩] := by
  refine ⟨?_, rfl⟩
  cases hd : _default_rule conf with
  | error e => simp [compile, hd] at h
  | ok d =>
    cases hw : _well_known_rules conf with
    | error e => simp [compile, hd, hw] at h
    | ok wks =>
      cases hs : _smartstack_rules nsLookup conf with
      | error e => simp [compile, hd, hw, hs] at h
      | ok sss =>
        simp only [compile, hd, hw, hs, Except.ok.injEq] at h
        exact ⟨d, wks, sss, rfl,
          (exceptList_ok_iff _well_known_rule conf.well_known wks).1 hw,
          (exceptList_ok_iff (_smartstack_rule nsLookup) conf.smartstack sss).1 hs,
          h.symm⟩

/-- C3 witness: the theorem applied to the example policy document of the
spec, with its compiled three-rule list. -/
theorem compile_order_witness :
    (∃ d wks sss,
      _default_rule example_conf = .ok d ∧
      List.Forall₂ (fun dep rule => _well_known_rule dep = .ok rule) example_conf.well_known wks ∧
      List.Forall₂ (fun ns rule => _smartstack_rule example_nsLookup ns = .ok rule)
        example_conf.smartstack sss ∧
      [(⟨"ip", "0.0.0.0/0.0.0.0", "0.0.0.0/0.0.0.0", "REJECT", []⟩ : Rule),
       ⟨"ip", "0.0.0.0/0.0.0.0", "0.0.0.0/0.0.0.0", "PAASTA-INTERNET", []⟩,
       ⟨"tcp", "0.0.0.0/0.0.0.0", "169.254.255.254/255.255.255.255", "ACCEPT",
        [("tcp", [("dport", "8888")])]⟩] = d :: (wks ++ sss)) ∧
    compile example_nsLookup example_conf = .ok
      [⟨"ip", "0.0.0.0/0.0.0.0", "0.0.0.0/0.0.0.0", "REJECT", []⟩,
       ⟨"ip", "0.0.0.0/0.0.0.0", "0.0.0.0/0.0.0.0", "PAASTA-INTERNET", []⟩,
       ⟨"tcp", "0.0.0.0/0.0.0.0", "169.254.255.254/255.255.255.255", "ACCEPT",
        [("tcp", [("dport", "8888")])]⟩] :=
  compile_order example_conf example_nsLookup _ rfl

/-- When every deletion is accepted, the deletion loop attempts every stale
chain, in order, and reports no failure. -/
theorem gcRun_all_ok (deleteOk : String → Bool) (l : List String)
    (h : ∀ c ∈ l, deleteOk c = true) : gcRun deleteOk l = (l, none) := by
  induction l with
  | nil => rfl
  | cons c cs ih =>
    have hc := h c (List.mem_cons_self c cs)
    have hcs : ∀ x ∈ cs, deleteOk x = true := fun x hx => h x (List.mem_cons_of_mem c hx)
    simp [gcRun, hc, ih hcs]

/-- A list fails the contains test exactly for the values it does not
hold. -/
theorem contains_eq_false_iff (l : List String) (a : String) :
    (l.contains a = false) ↔ a ∉ l := by
  constructor
  · intro h hmem
    have h2 : l.contains a = true := List.elem_iff.mpr hmem
    rw [h] at h2
    cases h2
  · intro h
    cases hc : l.contains a
    · rfl
    · exact absurd (List.elem_iff.mp hc) h

/-- C8: with every deletion accepted, the garbage collector reports no
failure and calls delete_chain exactly on the present chains that match the
naming convention and are not desired; a present chain outside the naming
convention is never deleted, whatever the desired set. -/
theorem garbage_collect_exact (deleteOk : String → Bool) (present desired : List String)
    (c : String) (hok : ∀ a, deleteOk a = true) :
    (garbage_collect_old_service_chains deleteOk present desired).2 = none ∧
    ((c ∈ (garbage_collect_old_service_chains deleteOk present desired).1) ↔
      (c ∈ present ∧ pyStartswith c "PAASTA." = true ∧ c ∉ desired)) := by
  have h1 : garbage_collect_old_service_chains deleteOk present desired =
      (stale_chains present desired, none) :=
    gcRun_all_ok deleteOk _ (fun a _ => hok a)
  rw [h1]
  refine ⟨rfl, ?_⟩
  simp only [stale_chains, current_paasta_chains, List.mem_filter, Bool.not_eq_true',
    contains_eq_false_iff, and_assoc]

/-- C8 witness: three present chains, one desired; the non-desired chain
matching the convention is deleted, and nothing failed. -/
theorem garbage_collect_exact_witness :
    (garbage_collect_old_service_chains (fun _ => true)
      ["PAASTA.a", "PAASTA.b", "INPUT"] ["PAASTA.b"]).2 = none ∧
    (("PAASTA.a" ∈ (garbage_collect_old_service_chains (fun _ => true)
        ["PAASTA.a", "PAASTA.b", "INPUT"] ["PAASTA.b"]).1) ↔
      ("PAASTA.a" ∈ ["PAASTA.a", "PAASTA.b", "INPUT"] ∧
        pyStartswith "PAASTA.a" "PAASTA." = true ∧ "PAASTA.a" ∉ ["PAASTA.b"])) :=
  garbage_collect_exact (fun _ => true) ["PAASTA.a", "PAASTA.b", "INPUT"] ["PAASTA.b"]
    "PAASTA.a" (fun _ => rfl)

/-- C2 counterexample: with two stragglers and the collaborator refusing the
first deletion, the loop stops: the only delete_chain call attempted is the
failing one, the remaining straggler is never attempted, and the exception
propagates; this refutes report-skip-and-continue. -/
theorem gc_removal_failure_counterexample :
    (garbage_collect_old_service_chains (fun c => !(c == "PAASTA.a"))
        ["PAASTA.a", "PAASTA.b"] []).1 = ["PAASTA.a"] ∧
    "PAASTA.b" ∉ (garbage_collect_old_service_chains (fun c => !(c == "PAASTA.a"))
        ["PAASTA.a", "PAASTA.b"] []).1 ∧
    (garbage_collect_old_service_chains (fun c => !(c == "PAASTA.a"))
        ["PAASTA.a", "PAASTA.b"] []).2 = some "PAASTA.a" := by
  decide

/-- A refused deletion stops the loop right there. -/
theorem gcRun_stops (deleteOk : String → Bool) (done : List String) (c : String)
    (rest : List String) (hdone : ∀ d ∈ done, deleteOk d = true) (hc : deleteOk c = false) :
    gcRun deleteOk (done ++ c :: rest) = (done ++ [c], some c) := by
  induction done with
  | nil => simp [gcRun, hc]
  | cons d ds ih =>
    have hd := hdone d (List.mem_cons_self d ds)
    have hds : ∀ x ∈ ds, deleteOk x = true := fun x hx => hdone x (List.mem_cons_of_mem d hx)
    simp [gcRun, hd, ih hds]

/-- C2 amended: a refused deletion aborts the garbage-collection loop: the
stragglers before the failing chain are deleted, the failing chain is the
last deletion attempted, the exception propagates, and the stragglers after
it are not attempted. -/
theorem gc_removal_failure_stops (deleteOk : String → Bool) (present desired : List String)
    (done : List String) (c : String) (rest : List String)
    (hsplit : stale_chains present desired = done ++ c :: rest)
    (hdone : ∀ d ∈ done, deleteOk d = true) (hc : deleteOk c = false) :
    (garbage_collect_old_service_chains deleteOk present desired).1 = done ++ [c] ∧
    (garbage_collect_old_service_chains deleteOk present desired).2 = some c := by
  unfold garbage_collect_old_service_chains
  rw [hsplit, gcRun_stops deleteOk done c rest hdone hc]
  exact ⟨rfl, rfl⟩

/-- C2 amended witness: one straggler deleted, the second refused, the third
never attempted. -/
theorem gc_removal_failure_stops_witness :
    (garbage_collect_old_service_chains (fun c => !(c == "PAASTA.a"))
        ["PAASTA.b", "PAASTA.a", "PAASTA.c"] []).1 = ["PAASTA.b"] ++ ["PAASTA.a"] ∧
    (garbage_collect_old_service_chains (fun c => !(c == "PAASTA.a"))
        ["PAASTA.b", "PAASTA.a", "PAASTA.c"] []).2 = some "PAASTA.a" :=
  gc_removal_failure_stops (fun c => !(c == "PAASTA.a")) ["PAASTA.b", "PAASTA.a", "PAASTA.c"]
    [] ["PAASTA.b"] "PAASTA.a" ["PAASTA.c"] (by decide) (by decide) (by decide)

/-- C9: the dispatch chain receives exactly one rule per (chain, MAC) pair,
a match-all rule with the MAC upper-cased and the per-service chain as
target, with no duplicates; then one ensure_rule call adds the jump rule to
each of the two traffic-entry chains; and the two-service example of the
spec yields exactly its two rules with upper-cased MAC values. -/
theorem dispatch_exact (service_chains : List (String × List String)) (r : Rule) :
    ((r ∈ paasta_rules service_chains) ↔
      ∃ chain macs, (chain, macs) ∈ service_chains ∧ ∃ mac ∈ macs, r = dispatch_rule chain mac) ∧
    (paasta_rules service_chains).Nodup ∧
    ensure_dispatch_chains service_chains =
      [.ensure_chain "PAASTA" (paasta_rules service_chains),
       .ensure_rule "INPUT" jump_to_paasta,
       .ensure_rule "FORWARD" jump_to_paasta] ∧
    paasta_rules [("svcA", ["aa:bb:cc:dd:ee:ff"]), ("svcB", ["11:22:33:44:55:66"])] =
      [⟨"ip", "0.0.0.0/0.0.0.0", "0.0.0.0/0.0.0.0", "svcA",
        [("mac", [("mac_source", "AA:BB:CC:DD:EE:FF")])]⟩,
       ⟨"ip", "0.0.0.0/0.0.0.0", "0.0.0.0/0.0.0.0", "svcB",
        [("mac", [("mac_source", "11:22:33:44:55:66")])]⟩] := by
  refine ⟨?_, List.nodup_dedup _, rfl, by decide⟩
  unfold paasta_rules
  rw [List.mem_dedup, List.mem_flatten]
  constructor
  · rintro ⟨s, hs, hr⟩
    rw [List.mem_map] at hs
    obtain ⟨e, he, rfl⟩ := hs
    rw [List.mem_map] at hr
    obtain ⟨mac, hmac, rfl⟩ := hr
    exact ⟨e.1, e.2, by simpa using he, mac, hmac, rfl⟩
  · rintro ⟨chain, macs, hmem, mac, hmac, rfl⟩
    exact ⟨macs.map (dispatch_rule chain), List.mem_map.2 ⟨(chain, macs), hmem, rfl⟩,
      List.mem_map.2 ⟨mac, hmac, rfl⟩⟩

/-- C1 counterexample: with the failing group first and a healthy group
second, the walk issues no ensure_chain call at all and the exception
propagates: the healthy group is not reconciled, refuting
report-and-continue. -/
theorem service_chain_fault_isolation_counterexample :
    ensure_service_chains cex_loadConfig (fun _ => []) cex_hash
      [(cex_bad, ["00:00:00:00:00:aa"]), (cex_good, ["00:00:00:00:00:bb"])] =
      ([], .error (.assertion_error (some "nonsense"))) := rfl

/-- C1 amended: the reconciliation walk stops at the first group whose
compile raises: the ensure_chain calls issued are exactly those of the
preceding groups, in order, the exception propagates, and neither the
failing group nor any later group gets an ensure_chain call (in particular
the chain of the failing group is left unchanged). -/
theorem ensure_service_chains_stops_at_first_error (loadConfig : LoadConfig)
    (nsLookup : NsLookup) (hash : String → String)
    (pre : List (ServiceGroup × List String)) (bad : ServiceGroup × List String)
    (post : List (ServiceGroup × List String)) (e : CompileError)
    (hpre : ∀ gm ∈ pre, ∃ rs, compile nsLookup (loadConfig gm.1) = .ok rs)
    (hbad : compile nsLookup (loadConfig bad.1) = .error e) :
    (ensure_service_chains loadConfig nsLookup hash (pre ++ bad :: post)).2 = .error e ∧
    List.Forall₂ (fun gm call => ∃ rs, compile nsLookup (loadConfig gm.1) = .ok rs ∧
        call = TableCall.ensure_chain (gm.1.chain_name hash) rs)
      pre (ensure_service_chains loadConfig nsLookup hash (pre ++ bad :: post)).1 := by
  induction pre with
  | nil =>
    obtain ⟨gb, bmacs⟩ := bad
    simp only [List.nil_append]
    rw [show ensure_service_chains loadConfig nsLookup hash ((gb, bmacs) :: post) =
      ([], .error e) by simp [ensure_service_chains, ServiceGroup.rules, hbad]]
    exact ⟨rfl, List.Forall₂.nil⟩
  | cons gm pres ih =>
    obtain ⟨g, macs⟩ := gm
    obtain ⟨rs, hrs⟩ := hpre (g, macs) (List.mem_cons_self _ _)
    have hpres : ∀ x ∈ pres, ∃ r, compile nsLookup (loadConfig x.1) = .ok r :=
      fun x hx => hpre x (List.mem_cons_of_mem _ hx)
    obtain ⟨ih1, ih2⟩ := ih hpres
    have hstep : ensure_service_chains loadConfig nsLookup hash
        (((g, macs) :: pres) ++ bad :: post) =
        (.ensure_chain (g.chain_name hash) rs ::
           (ensure_service_chains loadConfig nsLookup hash (pres ++ bad :: post)).1,
         (ensure_service_chains loadConfig nsLookup hash (pres ++ bad :: post)).2.map
           (fun m => (g.chain_name hash, macs) :: m)) := by
      simp [ensure_service_chains, ServiceGroup.rules, hrs]
    rw [hstep]
    refine ⟨?_, ?_⟩
    · rw [ih1]
      rfl
    · exact List.Forall₂.cons ⟨rs, hrs, rfl⟩ ih2

/-- C1 amended witness: a healthy group followed by the failing group; the
single call issued is the ensure_chain of the healthy group and the
exception propagates. -/
theorem ensure_service_chains_stops_witness :
    (ensure_service_chains cex_loadConfig (fun _ => []) cex_hash
        [(cex_good, ["00:00:00:00:00:bb"]), (cex_bad, ["00:00:00:00:00:aa"])]).2 =
      .error (.assertion_error (some "nonsense")) ∧
    List.Forall₂ (fun gm call => ∃ rs, compile (fun _ => []) (cex_loadConfig gm.1) = .ok rs ∧
        call = TableCall.ensure_chain (gm.1.chain_name cex_hash) rs)
      [(cex_good, ["00:00:00:00:00:bb"])]
      (ensure_service_chains cex_loadConfig (fun _ => []) cex_hash
        [(cex_good, ["00:00:00:00:00:bb"]), (cex_bad, ["00:00:00:00:00:aa"])]).1 :=
  ensure_service_chains_stops_at_first_error cex_loadConfig (fun _ => []) cex_hash
    [(cex_good, ["00:00:00:00:00:bb"])] (cex_bad, ["00:00:00:00:00:aa"]) [] _
    (fun gm hm => by
      rw [List.mem_singleton] at hm
      subst hm
      exact ⟨_, rfl⟩)
    rfl

/-- A failed boolean presence test, read as an equation. -/
theorem not_any_eq_false (t : Table) (n : String)
    (h : ¬ t.any (fun e => e.1 = n) = true) : t.any (fun e => e.1 = n) = false := by
  cases hh : t.any (fun e => e.1 = n)
  · rfl
  · exact absurd hh h

/-- A key occurs in a table exactly when some entry has it. -/
theorem any_key_eq_true_iff (t : Table) (n : String) :
    (t.any (fun e => e.1 = n) = true) ↔ ∃ e ∈ t, e.1 = n := by
  rw [List.any_eq_true]
  simp

/-- Chain lookup on a cons cell. -/
theorem getChain_cons (a : String × List Rule) (t : Table) (n : String) :
    getChain (a :: t) n = if a.1 = n then some a.2 else getChain t n := by
  by_cases h : a.1 = n <;> simp [getChain, List.find?_cons, h]

/-- Replacing the entries of a present key makes lookup of that key return
the new rules. -/
theorem getChain_map_replace_self (t : Table) (n : String) (rs : List Rule)
    (h : t.any (fun e => e.1 = n) = true) :
    getChain (t.map (fun e => if e.1 = n then (n, rs) else e)) n = some rs := by
  induction t with
  | nil => cases h
  | cons a t ih =>
    rw [List.map_cons, getChain_cons]
    by_cases ha : a.1 = n
    · simp [ha]
    · have ht : t.any (fun e => e.1 = n) = true := by
        simpa [List.any_cons, ha] using h
      simpa [ha] using ih ht

/-- Appending a fresh entry makes lookup of its key return its rules. -/
theorem getChain_append_new (t : Table) (n : String) (rs : List Rule)
    (h : t.any (fun e => e.1 = n) = false) :
    getChain (t ++ [(n, rs)]) n = some rs := by
  induction t with
  | nil => simp [getChain]
  | cons a t ih =>
    have ha : ¬ (a.1 = n) := by
      intro hc
      rw [List.any_cons] at h
      simp [hc] at h
    have ht : t.any (fun e => e.1 = n) = false := by
      rw [List.any_cons] at h
      simpa [ha] using h
    rw [List.cons_append, getChain_cons, if_neg ha]
    exact ih ht

/-- ensure_chain makes the named chain hold exactly the given rules. -/
theorem getChain_setChain_self (t : Table) (n : String) (rs : List Rule) :
    getChain (setChain t n rs) n = some rs := by
  unfold setChain
  by_cases h : t.any (fun e => e.1 = n) = true
  · rw [if_pos h]
    exact getChain_map_replace_self t n rs h
  · rw [if_neg h]
    exact getChain_append_new t n rs (not_any_eq_false t n h)

/-- Replacing one key leaves lookups of other keys unchanged. -/
theorem getChain_map_replace_ne (t : Table) (n : String) (rs : List Rule) (m : String)
    (hmn : m ≠ n) :
    getChain (t.map (fun e => if e.1 = n then (n, rs) else e)) m = getChain t m := by
  induction t with
  | nil => rfl
  | cons a t ih =>
    rw [List.map_cons, getChain_cons, getChain_cons]
    by_cases ha : a.1 = n
    · simp [ha, Ne.symm hmn, ih]
    · by_cases ham : a.1 = m <;> simp [ha, ham, hmn, ih]

/-- Appending a fresh entry leaves lookups of other keys unchanged. -/
theorem getChain_append_ne (t : Table) (n : String) (rs : List Rule) (m : String)
    (hmn : m ≠ n) :
    getChain (t ++ [(n, rs)]) m = getChain t m := by
  induction t with
  | nil => simp [getChain, Ne.symm hmn]
  | cons a t ih =>
    rw [List.cons_append, getChain_cons, getChain_cons]
    by_cases ham : a.1 = m <;> simp [ham, ih]

/-- ensure_chain of one name leaves every other chain unchanged. -/
theorem getChain_setChain_ne (t : Table) (n : String) (rs : List Rule) (m : String)
    (hmn : m ≠ n) :
    getChain (setChain t n rs) m = getChain t m := by
  unfold setChain
  by_cases h : t.any (fun e => e.1 = n) = true
  · rw [if_pos h]
    exact getChain_map_replace_ne t n rs m hmn
  · rw [if_neg h]
    exact getChain_append_ne t n rs m hmn

/-- Replacing a present chain does not change the set of chain names. -/
theorem chainNames_setChain_of_mem (t : Table) (n : String) (rs : List Rule)
    (h : t.any (fun e => e.1 = n) = true) :
    chainNames (setChain t n rs) = chainNames t := by
  unfold setChain
  rw [if_pos h]
  unfold chainNames
  rw [List.map_map]
  apply List.map_congr_left
  intro e _
  by_cases he : e.1 = n <;> simp [he]

/-- Creating an absent chain appends its name. -/
theorem chainNames_setChain_of_not_mem (t : Table) (n : String) (rs : List Rule)
    (h : t.any (fun e => e.1 = n) = false) :
    chainNames (setChain t n rs) = chainNames t ++ [n] := by
  unfold setChain
  rw [if_neg (by simp [h])]
  simp [chainNames]

/-- ensure_chain keeps the chain names duplicate-free. -/
theorem nodup_chainNames_setChain (t : Table) (n : String) (rs : List Rule)
    (ht : (chainNames t).Nodup) : (chainNames (setChain t n rs)).Nodup := by
  by_cases h : t.any (fun e => e.1 = n) = true
  · rw [chainNames_setChain_of_mem t n rs h]
    exact ht
  · rw [chainNames_setChain_of_not_mem t n rs (not_any_eq_false t n h)]
    rw [List.nodup_append]
    refine ⟨ht, List.nodup_singleton n, ?_⟩
    intro x hx hx2
    rw [List.mem_singleton] at hx2
    subst hx2
    obtain ⟨e, he, he1⟩ := List.mem_map.1 hx
    exact h ((any_key_eq_true_iff t x).2 ⟨e, he, he1⟩)

/-- A chain that lookup finds makes the presence test succeed. -/
theorem getChain_some_imp_any (t : Table) (n : String) (rs : List Rule)
    (h : getChain t n = some rs) : t.any (fun e => e.1 = n) = true := by
  unfold getChain at h
  cases hf : t.find? (fun e => e.1 = n) with
  | none => rw [hf] at h; cases h
  | some e0 =>
    have h1 := List.find?_some hf
    have h2 := List.mem_of_find?_eq_some hf
    exact (any_key_eq_true_iff t n).2 ⟨e0, h2, by simpa using h1⟩

/-- Replacing a chain with the rules it already holds is a no-op on a
well-formed table. -/
theorem setChain_eq_self (t : Table) (n : String) (rs : List Rule)
    (ht : (chainNames t).Nodup) (h : getChain t n = some rs) :
    setChain t n rs = t := by
  induction t with
  | nil => simp [getChain] at h
  | cons a t ih =>
    obtain ⟨a1, a2⟩ := a
    have ht2 : (chainNames t).Nodup := by
      have h2 := ht
      rw [chainNames, List.map_cons] at h2
      exact (List.nodup_cons.1 h2).2
    rw [getChain_cons] at h
    by_cases ha : a1 = n
    · have ha2 : a2 = rs := by
        rw [if_pos (show ((a1, a2) : String × List Rule).1 = n from ha)] at h
        simpa using h
      have hany : ((a1, a2) :: t).any (fun e => e.1 = n) = true := by simp [ha]
      rw [setChain, if_pos hany, List.map_cons]
      have hd : a1 ∉ chainNames t := by
        have h2 := ht
        rw [chainNames, List.map_cons] at h2
        exact (List.nodup_cons.1 h2).1
      have hmap : t.map (fun e => if e.1 = n then (n, rs) else e) = t := by
        conv_rhs => rw [← List.map_id t]
        apply List.map_congr_left
        intro e he
        rw [if_neg (fun hc => hd (List.mem_map.2 ⟨e, he, hc.trans ha.symm⟩))]
        rfl
      rw [hmap]
      congr 1
      rw [if_pos (show ((a1, a2) : String × List Rule).1 = n from ha)]
      rw [← ha, ← ha2]
    · rw [if_neg (show ¬ ((a1, a2) : String × List Rule).1 = n from ha)] at h
      have hih := ih ht2 h
      by_cases htany : t.any (fun e => e.1 = n) = true
      · have hany : ((a1, a2) :: t).any (fun e => e.1 = n) = true := by
          rw [List.any_cons]
          simp [htany]
        rw [setChain, if_pos hany, List.map_cons]
        have hmap : t.map (fun e => if e.1 = n then (n, rs) else e) = t := by
          have h3 := hih
          rw [setChain, if_pos htany] at h3
          exact h3
        rw [hmap]
        simp [ha]
      · exact absurd (getChain_some_imp_any t n rs h) (by simpa using htany)

/-- delete_chain removes the named chain from lookup. -/
theorem getChain_delChain_self (t : Table) (n : String) : getChain (delChain t n) n = none := by
  have hf : (delChain t n).find? (fun e => e.1 = n) = none := by
    rw [List.find?_eq_none]
    intro e he
    have h2 := (List.mem_filter.1 he).2
    simpa using h2
  unfold getChain
  rw [hf]
  rfl

/-- delete_chain of one name leaves every other chain unchanged. -/
theorem getChain_delChain_ne (t : Table) (n m : String) (hmn : m ≠ n) :
    getChain (delChain t n) m = getChain t m := by
  induction t with
  | nil => rfl
  | cons a t ih =>
    by_cases ha : a.1 = n
    · have hstep : delChain (a :: t) n = delChain t n := by
        unfold delChain
        rw [List.filter_cons, if_neg (by simpa using ha)]
      rw [hstep, ih, getChain_cons, if_neg (by rw [ha]; exact Ne.symm hmn)]
    · have hstep : delChain (a :: t) n = a :: delChain t n := by
        unfold delChain
        rw [List.filter_cons, if_pos (by simpa using ha)]
      rw [hstep, getChain_cons, getChain_cons, ih]

/-- The chain names present after a deletion. -/
theorem mem_chainNames_delChain (t : Table) (n m : String) :
    m ∈ chainNames (delChain t n) ↔ m ∈ chainNames t ∧ m ≠ n := by
  unfold chainNames delChain
  constructor
  · intro h
    obtain ⟨e, he, rfl⟩ := List.mem_map.1 h
    have hm := List.mem_filter.1 he
    exact ⟨List.mem_map.2 ⟨e, hm.1, rfl⟩, by simpa using hm.2⟩
  · rintro ⟨h, hne⟩
    obtain ⟨e, he, rfl⟩ := List.mem_map.1 h
    exact List.mem_map.2 ⟨e, List.mem_filter.2 ⟨he, by simpa using hne⟩, rfl⟩

/-- delete_chain keeps the chain names duplicate-free. -/
theorem nodup_chainNames_delChain (t : Table) (n : String)
    (ht : (chainNames t).Nodup) : (chainNames (delChain t n)).Nodup := by
  have hsub : (chainNames (delChain t n)).Sublist (chainNames t) := by
    unfold chainNames delChain
    exact (List.filter_sublist t).map (fun e => e.1)
  exact ht.sublist hsub

/-- ensure_rule on one chain leaves every other chain unchanged. -/
theorem getChain_ensureRuleInChain_ne (t : Table) (nm : String) (r : Rule) (m : String)
    (hmn : m ≠ nm) : getChain (ensureRuleInChain t nm r) m = getChain t m := by
  cases h : getChain t nm with
  | none =>
    have hstep : ensureRuleInChain t nm r = t := by
      unfold ensureRuleInChain
      rw [h]
    rw [hstep]
  | some rs =>
    have hstep : ensureRuleInChain t nm r =
        if r ∈ rs then t else setChain t nm (rs ++ [r]) := by
      unfold ensureRuleInChain
      rw [h]
    rw [hstep]
    by_cases hr : r ∈ rs
    · rw [if_pos hr]
    · rw [if_neg hr]
      exact getChain_setChain_ne t nm (rs ++ [r]) m hmn

/-- After ensure_rule, whatever the chain holds contains the rule. -/
theorem ensureRuleInChain_mem (t : Table) (nm : String) (r : Rule) (rs2 : List Rule)
    (h : getChain (ensureRuleInChain t nm r) nm = some rs2) : r ∈ rs2 := by
  cases hg : getChain t nm with
  | none =>
    have hstep : ensureRuleInChain t nm r = t := by
      unfold ensureRuleInChain
      rw [hg]
    rw [hstep, hg] at h
    cases h
  | some rs =>
    have hstep : ensureRuleInChain t nm r =
        if r ∈ rs then t else setChain t nm (rs ++ [r]) := by
      unfold ensureRuleInChain
      rw [hg]
    rw [hstep] at h
    by_cases hr : r ∈ rs
    · rw [if_pos hr, hg] at h
      obtain rfl : rs = rs2 := by simpa using h
      exact hr
    · rw [if_neg hr, getChain_setChain_self] at h
      obtain rfl : rs ++ [r] = rs2 := by simpa using h
      exact List.mem_append.2 (Or.inr (by simp))

/-- ensure_rule does not change the set of chain names. -/
theorem chainNames_ensureRuleInChain (t : Table) (nm : String) (r : Rule) :
    chainNames (ensureRuleInChain t nm r) = chainNames t := by
  cases hg : getChain t nm with
  | none =>
    have hstep : ensureRuleInChain t nm r = t := by
      unfold ensureRuleInChain
      rw [hg]
    rw [hstep]
  | some rs =>
    have hstep : ensureRuleInChain t nm r =
        if r ∈ rs then t else setChain t nm (rs ++ [r]) := by
      unfold ensureRuleInChain
      rw [hg]
    rw [hstep]
    by_cases hr : r ∈ rs
    · rw [if_pos hr]
    · rw [if_neg hr]
      exact chainNames_setChain_of_mem t nm _ (getChain_some_imp_any t nm rs hg)

/-- ensure_rule is a no-op when the rule is already present (or the chain
absent). -/
theorem ensureRuleInChain_eq_self (t : Table) (nm : String) (r : Rule)
    (h : ∀ rs, getChain t nm = some rs → r ∈ rs) : ensureRuleInChain t nm r = t := by
  cases hg : getChain t nm with
  | none =>
    unfold ensureRuleInChain
    rw [hg]
  | some rs =>
    have hstep : ensureRuleInChain t nm r =
        if r ∈ rs then t else setChain t nm (rs ++ [r]) := by
      unfold ensureRuleInChain
      rw [hg]
    rw [hstep, if_pos (h rs hg)]

/-- A fold of ensure_chain calls leaves chains outside its name set
unchanged. -/
theorem getChain_foldl_setChain_notMem {γ : Type} (f : γ → String) (h : γ → List Rule)
    (l : List γ) (t : Table) (m : String) (hm : m ∉ l.map f) :
    getChain (l.foldl (fun tt x => setChain tt (f x) (h x)) t) m = getChain t m := by
  induction l generalizing t with
  | nil => rfl
  | cons a l ih =>
    rw [List.foldl_cons]
    have hma : m ≠ f a := by
      intro hc
      exact hm (by simp [hc])
    have htail : m ∉ l.map f := by
      intro hc
      exact hm (by simp [hc])
    rw [ih (setChain t (f a) (h a)) htail]
    exact getChain_setChain_ne t (f a) (h a) m hma

/-- A fold of ensure_chain calls with distinct names installs each rule
list under its name. -/
theorem getChain_foldl_setChain_mem {γ : Type} (f : γ → String) (h : γ → List Rule)
    (l : List γ) (t : Table) (hnodup : (l.map f).Nodup) (x : γ) (hx : x ∈ l) :
    getChain (l.foldl (fun tt y => setChain tt (f y) (h y)) t) (f x) = some (h x) := by
  induction l generalizing t with
  | nil => cases hx
  | cons a l ih =>
    rw [List.foldl_cons]
    have hn2 : (f a :: l.map f).Nodup := by simpa using hnodup
    rcases List.mem_cons.1 hx with rfl | hx2
    · rw [getChain_foldl_setChain_notMem f h l _ (f x) (List.nodup_cons.1 hn2).1]
      exact getChain_setChain_self t (f x) (h x)
    · exact ih (setChain t (f a) (h a)) (List.nodup_cons.1 hn2).2 hx2

/-- A fold of ensure_chain calls that re-install what each chain already
holds is a no-op on a well-formed table. -/
theorem foldl_setChain_eq_self {γ : Type} (f : γ → String) (h : γ → List Rule)
    (l : List γ) (t : Table) (ht : (chainNames t).Nodup)
    (hall : ∀ x ∈ l, getChain t (f x) = some (h x)) :
    l.foldl (fun tt x => setChain tt (f x) (h x)) t = t := by
  induction l with
  | nil => rfl
  | cons a l ih =>
    rw [List.foldl_cons, setChain_eq_self t (f a) (h a) ht (hall a (List.mem_cons_self a l))]
    exact ih (fun x hx => hall x (List.mem_cons_of_mem a hx))

/-- A fold of ensure_chain calls keeps the chain names duplicate-free. -/
theorem nodup_chainNames_foldl_setChain {γ : Type} (f : γ → String) (h : γ → List Rule)
    (l : List γ) (t : Table) (ht : (chainNames t).Nodup) :
    (chainNames (l.foldl (fun tt x => setChain tt (f x) (h x)) t)).Nodup := by
  induction l generalizing t with
  | nil => exact ht
  | cons a l ih =>
    rw [List.foldl_cons]
    exact ih (setChain t (f a) (h a)) (nodup_chainNames_setChain t (f a) (h a) ht)

/-- A fold of deletions leaves the chains outside the deleted set
unchanged. -/
theorem getChain_foldl_delChain_notMem (l : List String) (t : Table) (m : String)
    (hm : m ∉ l) : getChain (l.foldl delChain t) m = getChain t m := by
  induction l generalizing t with
  | nil => rfl
  | cons a l ih =>
    rw [List.foldl_cons]
    rw [ih (delChain t a) (fun hc => hm (List.mem_cons_of_mem a hc))]
    exact getChain_delChain_ne t a m (fun hc => hm (by rw [hc]; exact List.mem_cons_self a l))

/-- The chain names left by a fold of deletions. -/
theorem mem_chainNames_foldl_delChain (l : List String) (t : Table) (m : String) :
    m ∈ chainNames (l.foldl delChain t) ↔ m ∈ chainNames t ∧ m ∉ l := by
  induction l generalizing t with
  | nil => simp
  | cons a l ih =>
    rw [List.foldl_cons, ih (delChain t a), mem_chainNames_delChain]
    constructor
    · rintro ⟨⟨h1, h2⟩, h3⟩
      refine ⟨h1, fun hc => ?_⟩
      rcases List.mem_cons.1 hc with rfl | hc2
      · exact h2 rfl
      · exact h3 hc2
    · rintro ⟨h1, h2⟩
      exact ⟨⟨h1, fun hc => h2 (by simp [hc])⟩, fun hc => h2 (by simp [hc])⟩

/-- A fold of deletions keeps the chain names duplicate-free. -/
theorem nodup_chainNames_foldl_delChain (l : List String) (t : Table)
    (ht : (chainNames t).Nodup) : (chainNames (l.foldl delChain t)).Nodup := by
  induction l generalizing t with
  | nil => exact ht
  | cons a l ih =>
    rw [List.foldl_cons]
    exact ih (delChain t a) (nodup_chainNames_delChain t a ht)

/-- Membership in the stale-chain set: present, matching the naming
convention, and not desired. -/
theorem stale_chains_mem (present desired : List String) (c : String) :
    c ∈ stale_chains present desired ↔
      c ∈ present ∧ pyStartswith c "PAASTA." = true ∧ c ∉ desired := by
  simp only [stale_chains, current_paasta_chains, List.mem_filter, Bool.not_eq_true',
    contains_eq_false_iff, and_assoc]

/-- Every derived chain name matches the naming convention. -/
theorem pyStartswith_chain_name (hash : String → String) (g : ServiceGroup) :
    pyStartswith (g.chain_name hash) "PAASTA." = true := by
  unfold pyStartswith ServiceGroup.chain_name
  rw [List.isPrefixOf_iff_prefix]
  simp only [String.data_append, List.append_assoc]
  exact List.prefix_append _ _

/-- A name matching the naming convention is none of the four fixed chain
names the pass also touches. -/
theorem prefixed_ne_special (s : String) (h : pyStartswith s "PAASTA." = true) :
    s ≠ "PAASTA-INTERNET" ∧ s ≠ "PAASTA" ∧ s ≠ "INPUT" ∧ s ≠ "FORWARD" := by
  refine ⟨?_, ?_, ?_, ?_⟩ <;> rintro rfl <;> revert h <;> decide

/-- A name that does not match the naming convention is never a derived
chain name. -/
theorem special_not_mem_names (s : String) (hs : pyStartswith s "PAASTA." = false)
    (groups : List (ServiceGroup × List String)) (hash : String → String) :
    s ∉ groups.map (fun gm => gm.1.chain_name hash) := by
  intro hmem
  obtain ⟨gm, -, heq⟩ := List.mem_map.1 hmem
  have hp := pyStartswith_chain_name hash gm.1
  rw [heq, hs] at hp
  cases hp

/-- When every group compiles, the reconciler emits exactly one ensure_chain
call per group, in group order, and returns the chain-to-MAC mapping. -/
theorem ensure_service_chains_ok (loadConfig : LoadConfig) (nsLookup : NsLookup)
    (hash : String → String) (groups : List (ServiceGroup × List String))
    (hok : ∀ gm ∈ groups, ∃ rs, compile nsLookup (loadConfig gm.1) = .ok rs) :
    ensure_service_chains loadConfig nsLookup hash groups =
      (groups.map (fun gm =>
          TableCall.ensure_chain (gm.1.chain_name hash)
            (compiledRules loadConfig nsLookup gm.1)),
       .ok (groups.map (fun gm => (gm.1.chain_name hash, gm.2)))) := by
  induction groups with
  | nil => rfl
  | cons gm groups ih =>
    obtain ⟨g, macs⟩ := gm
    obtain ⟨rs, hrs⟩ := hok (g, macs) (List.mem_cons_self _ _)
    have hok2 : ∀ x ∈ groups, ∃ r, compile nsLookup (loadConfig x.1) = .ok r :=
      fun x hx => hok x (List.mem_cons_of_mem _ hx)
    have hcomp : compiledRules loadConfig nsLookup g = rs := by
      unfold compiledRules
      rw [hrs]
    simp [ensure_service_chains, ServiceGroup.rules, hrs, ih hok2, hcomp, Except.map]

/-- Applying a sequence of ensure_chain calls is a fold of setChain. -/
theorem applyCalls_map_ensure_chain {γ : Type} (f : γ → String) (h : γ → List Rule)
    (l : List γ) (t : Table) :
    applyCalls t (l.map (fun x => TableCall.ensure_chain (f x) (h x))) =
      l.foldl (fun tt x => setChain tt (f x) (h x)) t := by
  unfold applyCalls
  rw [List.foldl_map]
  rfl

/-- Applying a sequence of delete_chain calls is a fold of delChain. -/
theorem applyCalls_map_delete_chain (l : List String) (t : Table) :
    applyCalls t (l.map TableCall.delete_chain) = l.foldl delChain t := by
  unfold applyCalls
  rw [List.foldl_map]
  rfl

/-- A pass in which every group compiles takes the table to the success-path
normal form. -/
theorem general_update_ok (loadConfig : LoadConfig) (nsLookup : NsLookup)
    (hash : String → String) (soa_dir : String)
    (running : List (String × String × String × String)) (t : Table)
    (hok : ∀ gm ∈ active_service_groups soa_dir running,
        ∃ rs, compile nsLookup (loadConfig gm.1) = .ok rs) :
    general_update loadConfig nsLookup hash soa_dir running t =
      pass_table loadConfig nsLookup hash (active_service_groups soa_dir running) t := by
  have hsc := ensure_service_chains_ok loadConfig nsLookup hash
    (active_service_groups soa_dir running) hok
  simp only [general_update]
  rw [hsc]
  simp only [pass_table, pass_pre_gc, reconciled_table, ensure_dispatch_chains,
    ensure_internet_chain, applyCalls, List.foldl_cons, List.foldl_nil, applyCall,
    List.map_map, List.foldl_map, Function.comp]
  rfl

/-- A pass that starts from a well-formed table with distinct service chain
names establishes the updated-table shape and keeps the table well-formed. -/
theorem pass_table_updates (loadConfig : LoadConfig) (nsLookup : NsLookup)
    (hash : String → String) (groups : List (ServiceGroup × List String)) (t : Table)
    (ht : (chainNames t).Nodup)
    (hnames : (groups.map (fun gm => gm.1.chain_name hash)).Nodup) :
    GroupsUpdated loadConfig nsLookup hash groups
        (pass_table loadConfig nsLookup hash groups t) ∧
    (chainNames (pass_table loadConfig nsLookup hash groups t)).Nodup := by
  have hnPI : getChain (pass_pre_gc loadConfig nsLookup hash groups t) "PAASTA-INTERNET" =
      some internet_rules := by
    unfold pass_pre_gc
    rw [getChain_ensureRuleInChain_ne _ _ _ _ (by decide)]
    rw [getChain_ensureRuleInChain_ne _ _ _ _ (by decide)]
    rw [getChain_setChain_ne _ _ _ _ (by decide)]
    unfold reconciled_table
    rw [getChain_foldl_setChain_notMem _ _ _ _ _
      (special_not_mem_names _ (by decide) groups hash)]
    exact getChain_setChain_self t _ _
  have hnSvc : ∀ gm ∈ groups, getChain (pass_pre_gc loadConfig nsLookup hash groups t)
      (gm.1.chain_name hash) = some (compiledRules loadConfig nsLookup gm.1) := by
    intro gm hgm
    have hpref := pyStartswith_chain_name hash gm.1
    obtain ⟨hne1, hne2, hne3, hne4⟩ := prefixed_ne_special _ hpref
    unfold pass_pre_gc
    rw [getChain_ensureRuleInChain_ne _ _ _ _ hne4]
    rw [getChain_ensureRuleInChain_ne _ _ _ _ hne3]
    rw [getChain_setChain_ne _ _ _ _ hne2]
    unfold reconciled_table
    exact getChain_foldl_setChain_mem _ _ groups _ hnames gm hgm
  have hnPA : getChain (pass_pre_gc loadConfig nsLookup hash groups t) "PAASTA" =
      some (paasta_rules (groups.map (fun gm => (gm.1.chain_name hash, gm.2)))) := by
    unfold pass_pre_gc
    rw [getChain_ensureRuleInChain_ne _ _ _ _ (by decide)]
    rw [getChain_ensureRuleInChain_ne _ _ _ _ (by decide)]
    exact getChain_setChain_self _ _ _
  have hjumpIN : ∀ rs, getChain (pass_pre_gc loadConfig nsLookup hash groups t) "INPUT" =
      some rs → jump_to_paasta ∈ rs := by
    intro rs hrs
    unfold pass_pre_gc at hrs
    rw [getChain_ensureRuleInChain_ne _ _ _ _ (by decide)] at hrs
    exact ensureRuleInChain_mem _ _ _ _ hrs
  have hjumpFW : ∀ rs, getChain (pass_pre_gc loadConfig nsLookup hash groups t) "FORWARD" =
      some rs → jump_to_paasta ∈ rs := by
    intro rs hrs
    unfold pass_pre_gc at hrs
    exact ensureRuleInChain_mem _ _ _ _ hrs
  have hnodup5 : (chainNames (pass_pre_gc loadConfig nsLookup hash groups t)).Nodup := by
    unfold pass_pre_gc
    rw [chainNames_ensureRuleInChain, chainNames_ensureRuleInChain]
    apply nodup_chainNames_setChain
    unfold reconciled_table
    apply nodup_chainNames_foldl_setChain
    exact nodup_chainNames_setChain t _ _ ht
  constructor
  · refine ⟨?_, ?_, ?_, ?_, ?_⟩
    · unfold pass_table
      rw [getChain_foldl_delChain_notMem _ _ _ ?hnm]
      · exact hnPI
      case hnm =>
        intro hc
        obtain ⟨-, hpref, -⟩ := (stale_chains_mem _ _ _).1 hc
        exact absurd hpref (by decide)
    · intro gm hgm
      unfold pass_table
      rw [getChain_foldl_delChain_notMem _ _ _ ?hgm2]
      · exact hnSvc gm hgm
      case hgm2 =>
        intro hc
        obtain ⟨-, -, hnd⟩ := (stale_chains_mem _ _ _).1 hc
        exact hnd (List.mem_map.2 ⟨gm, hgm, rfl⟩)
    · unfold pass_table
      rw [getChain_foldl_delChain_notMem _ _ _ ?hpa]
      · exact hnPA
      case hpa =>
        intro hc
        obtain ⟨-, hpref, -⟩ := (stale_chains_mem _ _ _).1 hc
        exact absurd hpref (by decide)
    · intro c hc rs hrs
      have hc2 : c = "INPUT" ∨ c = "FORWARD" := by simpa using hc
      unfold pass_table at hrs
      rcases hc2 with rfl | rfl
      · rw [getChain_foldl_delChain_notMem _ _ _ ?hin] at hrs
        · exact hjumpIN rs hrs
        case hin =>
          intro hcc
          obtain ⟨-, hpref, -⟩ := (stale_chains_mem _ _ _).1 hcc
          exact absurd hpref (by decide)
      · rw [getChain_foldl_delChain_notMem _ _ _ ?hfw] at hrs
        · exact hjumpFW rs hrs
        case hfw =>
          intro hcc
          obtain ⟨-, hpref, -⟩ := (stale_chains_mem _ _ _).1 hcc
          exact absurd hpref (by decide)
    · intro n hn hpref
      unfold pass_table at hn
      rw [mem_chainNames_foldl_delChain] at hn
      obtain ⟨hn5, hnstale⟩ := hn
      by_contra hnot
      exact hnstale ((stale_chains_mem _ _ _).2 ⟨hn5, hpref, hnot⟩)
  · unfold pass_table
    exact nodup_chainNames_foldl_delChain _ _ hnodup5

/-- A pass run on a table that already has the updated shape changes
nothing. -/
theorem pass_table_fixed (loadConfig : LoadConfig) (nsLookup : NsLookup)
    (hash : String → String) (groups : List (ServiceGroup × List String)) (t : Table)
    (hU : GroupsUpdated loadConfig nsLookup hash groups t)
    (ht : (chainNames t).Nodup) :
    pass_table loadConfig nsLookup hash groups t = t := by
  obtain ⟨hPI, hsvc, hPA, hjump, hscope⟩ := hU
  have h1 : setChain t "PAASTA-INTERNET" internet_rules = t :=
    setChain_eq_self t _ _ ht hPI
  have h2 : reconciled_table loadConfig nsLookup hash groups t = t := by
    unfold reconciled_table
    exact foldl_setChain_eq_self (fun gm => gm.1.chain_name hash)
      (fun gm => compiledRules loadConfig nsLookup gm.1) groups t ht hsvc
  have h3 : setChain t "PAASTA"
      (paasta_rules (groups.map (fun gm => (gm.1.chain_name hash, gm.2)))) = t :=
    setChain_eq_self t _ _ ht hPA
  have h4 : ensureRuleInChain t "INPUT" jump_to_paasta = t :=
    ensureRuleInChain_eq_self t _ _ (hjump "INPUT" (by simp))
  have h5 : ensureRuleInChain t "FORWARD" jump_to_paasta = t :=
    ensureRuleInChain_eq_self t _ _ (hjump "FORWARD" (by simp))
  have hpre : pass_pre_gc loadConfig nsLookup hash groups t = t := by
    unfold pass_pre_gc
    rw [h1, h2, h3, h4, h5]
  unfold pass_table
  rw [hpre]
  have hstale : stale_chains (chainNames t)
      (groups.map (fun gm => gm.1.chain_name hash)) = [] := by
    rw [List.eq_nil_iff_forall_not_mem]
    intro a ha
    obtain ⟨hmem, hpref, hnd⟩ := (stale_chains_mem _ _ a).1 ha
    exact hnd (hscope a hmem hpref)
  rw [hstale]
  rfl

/-- C4: on a well-formed table, when every discovered group compiles and the
derived chain names are distinct, running the pass a second time on an
unchanged discovery and configuration input changes nothing: the second
pass replaces every chain with the identical rule set and deletes nothing,
so the external table is left exactly as the first pass left it. The call
sequence the reconciler emits is a pure function of the discovery and
configuration input alone (it never reads the table), so two successive
passes emit identical ensure_chain sequences by construction. -/
theorem general_update_idempotent (loadConfig : LoadConfig) (nsLookup : NsLookup)
    (hash : String → String) (soa_dir : String)
    (running : List (String × String × String × String)) (t : Table)
    (ht : (chainNames t).Nodup)
    (hok : ∀ gm ∈ active_service_groups soa_dir running,
        ∃ rs, compile nsLookup (loadConfig gm.1) = .ok rs)
    (hnames : ((active_service_groups soa_dir running).map
        (fun gm => gm.1.chain_name hash)).Nodup) :
    general_update loadConfig nsLookup hash soa_dir running
        (general_update loadConfig nsLookup hash soa_dir running t) =
      general_update loadConfig nsLookup hash soa_dir running t := by
  rw [general_update_ok loadConfig nsLookup hash soa_dir running t hok]
  rw [general_update_ok loadConfig nsLookup hash soa_dir running _ hok]
  obtain ⟨hU, hnd⟩ := pass_table_updates loadConfig nsLookup hash
    (active_service_groups soa_dir running) t ht hnames
  exact pass_table_fixed loadConfig nsLookup hash
    (active_service_groups soa_dir running) _ hU hnd

/-- C4 witness: one discovered instance with a block posture, starting from
the empty table; the second pass leaves the table of the first pass
unchanged. -/
theorem general_update_idempotent_witness :
    general_update (fun _ => ⟨some "block", [], []⟩) (fun _ => []) cex_hash "/soa"
        [("svc", "main", "marathon", "aa:bb:cc:dd:ee:ff")]
        (general_update (fun _ => ⟨some "block", [], []⟩) (fun _ => []) cex_hash "/soa"
          [("svc", "main", "marathon", "aa:bb:cc:dd:ee:ff")] []) =
      general_update (fun _ => ⟨some "block", [], []⟩) (fun _ => []) cex_hash "/soa"
        [("svc", "main", "marathon", "aa:bb:cc:dd:ee:ff")] [] :=
  general_update_idempotent (fun _ => ⟨some "block", [], []⟩) (fun _ => []) cex_hash "/soa"
    [("svc", "main", "marathon", "aa:bb:cc:dd:ee:ff")] [] (by decide)
    (fun gm _ => ⟨_, rfl⟩) (by decide)

end Firewall
